import Mathlib

/-!
Verification of the name-canonicalization and duplicate-detection core of the
listwork scripts (`parse_employer_bu.py` and `check_skipped_imports.py`).

Python strings are modelled as `List Char`; a value that may be a pandas NaN
instead of a string is modelled as `Option (List Char)` (with `none` for NaN /
non-string).  Python floats are modelled as exact rationals `ℚ`.
-/

namespace ListWork

/-- Whitespace characters stripped by Python's `str.strip()` / split by
`str.split()` (space, tab, newline, carriage return, vertical tab, form feed). -/
def isSpace (c : Char) : Bool :=
  c == ' ' || c == '\t' || c == '\n' || c == '\r' || c == Char.ofNat 11 || c == Char.ofNat 12

/-- Model of Python `str.lstrip()`: drop leading whitespace. -/
def lstrip (s : List Char) : List Char := s.dropWhile isSpace

/-- Model of Python `str.rstrip()`: drop trailing whitespace. -/
def rstrip (s : List Char) : List Char := (s.reverse.dropWhile isSpace).reverse

/-- Model of Python `str.strip()`: drop leading and trailing whitespace. -/
def strip (s : List Char) : List Char := rstrip (lstrip s)

/-- Model of Python `s.split(",")`: split on every comma, keeping empty pieces;
the result always has (number of commas + 1) pieces. -/
def splitComma : List Char → List (List Char)
  | [] => [[]]
  | c :: rest =>
    match splitComma rest with
    | [] => [[]]
    | p :: ps => if c = ',' then [] :: p :: ps else (c :: p) :: ps

/-- Model of Python `s.split()` with no argument: split on runs of whitespace,
dropping empty tokens. -/
def splitWs : List Char → List (List Char)
  | [] => []
  | c :: cs =>
    if isSpace c then splitWs cs
    else (c :: cs.takeWhile (fun x => !isSpace x)) :: splitWs (cs.dropWhile (fun x => !isSpace x))
termination_by s => s.length
decreasing_by
  · simp only [List.length_cons]
    omega
  · simp only [List.length_cons]
    exact Nat.lt_succ_of_le (List.Sublist.length_le (List.dropWhile_sublist _))

/-- Model of Python `" ".join(tokens)`. -/
def joinSpace : List (List Char) → List Char
  | [] => []
  | [t] => t
  | t :: t' :: ts => t ++ ' ' :: joinSpace (t' :: ts)

/-- Errors raised by the Python code that the claims talk about. -/
inductive PyErr
  | invalidName       -- ValueError from name validation
  | indexError        -- IndexError from `parts[-1]` on an empty list
  | keyError          -- pandas KeyError from sort_values on a column-less frame
  | invalidThreshold  -- ValueError from the __main__ threshold guard
deriving DecidableEq, Repr

/-- The three name fields produced by `parse_fullnames` for one row. -/
structure PersonName where
  last : List Char
  first : List Char
  middle : List Char
deriving DecidableEq, Repr

/-- Model of the per-row body of `parse_fullnames` (parse_employer_bu.py,
lines 141-161): validate the cell, split on the comma into last and rest,
tokenize the rest, and peel off a trailing `.`-terminated middle initial.
The input is `none` when the cell is not a string (NaN). -/
def splitFullname (fullname : Option (List Char)) : Except PyErr PersonName :=
  match fullname with
  | none => .error .invalidName
  | some s =>
    if strip s = [] then .error .invalidName
    else
      match splitComma s with
      | [l, rest] =>
        let last := strip l
        let rest := strip rest
        let parts := splitWs rest
        match parts.getLast? with
        | none => .error .indexError
        | some tok =>
          if tok.getLast? = some '.' then
            .ok ⟨last, joinSpace parts.dropLast, tok⟩
          else
            .ok ⟨last, joinSpace parts, []⟩
      | _ => .error .invalidName

/-- Model of `clean_name_part` in `combine_name_parts`
(check_skipped_imports.py, lines 106-107): `str(x) if pd.notna(x) else ""`. -/
def clean_name_part : Option (List Char) → List Char
  | some s => s
  | none => []

/-- Model of the per-row combination in `combine_name_parts`
(check_skipped_imports.py, line 113): `f"{last}, {first} {middle}".strip()`. -/
def combine (last first middle : List Char) : List Char :=
  strip (last ++ [',', ' '] ++ first ++ [' '] ++ middle)

/-- Model of `combine_name_parts` (check_skipped_imports.py, lines 109-117)
over a list of rows of three possibly-NaN cells: combine each row's parts and
raise ValueError if the combined string is empty. -/
def combine_name_parts :
    List (Option (List Char) × Option (List Char) × Option (List Char)) →
    Except PyErr (List (List Char))
  | [] => .ok []
  | (l, f, m) :: rest =>
    let full := combine (clean_name_part l) (clean_name_part f) (clean_name_part m)
    if full = [] then .error .invalidName
    else
      match combine_name_parts rest with
      | .ok rs => .ok (full :: rs)
      | .error e => .error e

/-! ### Similarity matcher (check_skipped_imports.py) -/

/-- Length of the longest common prefix of two strings. -/
def commonLen : List Char → List Char → Nat
  | a :: as, b :: bs => if a = b then commonLen as bs + 1 else 0
  | _, _ => 0

/-- Longest matching block `(i, j, k)` between `a` and `b`: `k` maximal with
`a[i:i+k] = b[j:j+k]`, ties broken by smallest `i`, then smallest `j`.  This is
the documented behaviour of `difflib.SequenceMatcher.find_longest_match` when
no element is junk (names here are far below the 200-character autojunk cutoff). -/
def bestBlock (a b : List Char) : Nat × Nat × Nat :=
  ((List.range a.length).flatMap fun i =>
      (List.range b.length).map fun j => (i, j, commonLen (a.drop i) (b.drop j))).foldl
    (fun best c => if best.2.2 < c.2.2 then c else best) (0, 0, 0)

/-- Total size of matched material between `a` and `b`: recursively take the
longest matching block and recurse on the pieces to its left and to its right,
as `difflib.SequenceMatcher.get_matching_blocks` does.  The fuel argument only
bounds the recursion depth; `a.length + b.length` always suffices because each
recursive call strictly shrinks the combined length. -/
def matchingSizeF : Nat → List Char → List Char → Nat
  | 0, _, _ => 0
  | fuel + 1, a, b =>
    let ijk := bestBlock a b
    if ijk.2.2 = 0 then 0
    else
      matchingSizeF fuel (a.take ijk.1) (b.take ijk.2.1) + ijk.2.2 +
        matchingSizeF fuel (a.drop (ijk.1 + ijk.2.2)) (b.drop (ijk.2.1 + ijk.2.2))

/-- Total matched size between two strings, per `difflib.SequenceMatcher`. -/
def matchingSize (a b : List Char) : Nat := matchingSizeF (a.length + b.length) a b

/-- Model of `SequenceMatcher(None, a, b).ratio()` (check_skipped_imports.py,
line 52): `2*M/T` with `M` the total matched size and `T` the total length
(`1` when both strings are empty), computed exactly over `ℚ`. -/
def ratio (a b : List Char) : ℚ :=
  if a.length + b.length = 0 then 1
  else mkRat (2 * matchingSize a b) (a.length + b.length)

/-- Stable insertion of `a` into a list sorted by `key` descending: `a` goes in
front of the first element whose key is `≤ key a`, so among equal keys the
newly inserted (originally earlier) element comes first. -/
def insertDesc {α : Type} (key : α → ℚ) (a : α) : List α → List α
  | [] => [a]
  | b :: bs => if key b ≤ key a then a :: b :: bs else b :: insertDesc key a bs

/-- Stable sort by `key` descending, modelling Python's stable
`list.sort(key=..., reverse=True)`. -/
def sortDesc {α : Type} (key : α → ℚ) : List α → List α
  | [] => []
  | a :: as => insertDesc key a (sortDesc key as)

/-- Match type of a reported candidate. -/
inductive MatchType
  | exact
  | fuzzy
deriving DecidableEq, Repr

/-- One row of the matcher's result (check_skipped_imports.py, lines 40-47 and
57-64): the cleaned query name, the match type, the best similarity, and the
matching reference names ordered by descending similarity. -/
structure MatchCandidate where
  name : List Char
  match_type : MatchType
  similarity : ℚ
  existing_matches : List (List Char)
deriving DecidableEq, Repr

/-- Model of `str(n).lower().strip()` (check_skipped_imports.py, lines 34-35). -/
def cleanName (s : List Char) : List Char := strip (s.map Char.toLower)

/-- Cleaned, NaN-filtered name list (check_skipped_imports.py, lines 34-35):
drop NaN entries, lower-case and strip the rest, keeping order. -/
def cleanedList (ns : List (Option (List Char))) : List (List Char) :=
  (ns.filterMap id).map cleanName

/-- The Python reference collection `names2` is deduplicated into a `set`,
whose iteration order CPython derives from randomized string hashes and the
code does not fix.  `o` is a valid model of that set's iteration order when it
enumerates exactly the distinct cleaned reference names, in some order. -/
def validOrder (names2 : List (Option (List Char))) (o : List (List Char)) : Prop :=
  o.Nodup ∧ (∀ x ∈ o, x ∈ cleanedList names2) ∧ ∀ x ∈ cleanedList names2, x ∈ o

instance validOrderDec (names2 : List (Option (List Char))) (o : List (List Char)) :
    Decidable (validOrder names2 o) := by
  unfold validOrder
  infer_instance

/-- Inner fuzzy-comparison loop of `find_potential_duplicates`
(check_skipped_imports.py, lines 50-54): every reference string whose
similarity to the query is at least the threshold, paired with that
similarity, in reference-set iteration order. -/
def close_matches (o : List (List Char)) (threshold : ℚ) (name : List Char) :
    List (List Char × ℚ) :=
  (o.filter fun existing => threshold ≤ ratio name existing).map
    fun existing => (existing, ratio name existing)

/-- Loop body of `find_potential_duplicates` for one cleaned query `name`
(check_skipped_imports.py, lines 37-64), with `o` the iteration order of the
reference set: exact membership short-circuits; otherwise every reference at
similarity `≥ threshold` is collected in iteration order and sorted by
similarity descending (Python's sort is stable). `none` means the query
contributes no row. -/
def processQuery (o : List (List Char)) (threshold : ℚ) (name : List Char) :
    Option MatchCandidate :=
  if name ∈ o then
    some ⟨name, MatchType.exact, 1, [name]⟩
  else
    if (close_matches o threshold name).isEmpty then none
    else
      let sorted := sortDesc (fun p => p.2) (close_matches o threshold name)
      some ⟨name, MatchType.fuzzy, (sorted.headD ([], 0)).2, sorted.map Prod.fst⟩

/-- Model of `find_potential_duplicates` (check_skipped_imports.py, lines
15-65).  `o` models the iteration order of `set(names2)` (see `validOrder`).
The final `pd.DataFrame(results).sort_values(by="similarity", ...)` sorts the
rows by similarity descending, but when `results` is empty the frame has no
`similarity` column and pandas raises `KeyError`. -/
def find_potential_duplicates (names1 names2 : List (Option (List Char)))
    (threshold : ℚ) (o : List (List Char)) : Except PyErr (List MatchCandidate) :=
  let results := (cleanedList names1).filterMap (processQuery o threshold)
  if results.isEmpty then .error .keyError
  else .ok (sortDesc (fun c => c.similarity) results)

/-- Model of the `__main__` entry guard of check_skipped_imports.py (lines
208-209) composed with the matcher call (line 152, via `check_skipped_imports`):
the CLI validates the similarity threshold before any matching work. -/
def run_cli (names1 names2 : List (Option (List Char))) (threshold : ℚ)
    (o : List (List Char)) : Except PyErr (List MatchCandidate) :=
  if threshold < 0 ∨ 1 < threshold then .error .invalidThreshold
  else find_potential_duplicates names1 names2 threshold o

instance exceptDecEq {ε α : Type} [DecidableEq ε] [DecidableEq α] :
    DecidableEq (Except ε α) := fun x y =>
  match x, y with
  | .error a, .error b =>
    if h : a = b then isTrue (by rw [h])
    else isFalse fun hc => by injection hc; contradiction
  | .ok a, .ok b =>
    if h : a = b then isTrue (by rw [h])
    else isFalse fun hc => by injection hc; contradiction
  | .error _, .ok _ => isFalse fun hc => Except.noConfusion hc
  | .ok _, .error _ => isFalse fun hc => Except.noConfusion hc

/-- A whitespace-free, comma-free, non-empty word, as produced by tokenizing a
well-formed first or middle name. -/
def goodToken (t : List Char) : Prop :=
  t ≠ [] ∧ ∀ c ∈ t, isSpace c = false ∧ c ≠ ','

instance goodTokenDec (t : List Char) : Decidable (goodToken t) := by
  unfold goodToken
  infer_instance

/-! ### Lemmas on the string primitives -/

theorem mem_dropWhile_of_mem {c : Char} (h : isSpace c = false) :
    ∀ {s : List Char}, c ∈ s → c ∈ s.dropWhile isSpace := by
  intro s hm
  induction s with
  | nil => simp at hm
  | cons a as ih =>
    by_cases ha : isSpace a
    · rw [List.dropWhile_cons_of_pos ha]
      rcases List.mem_cons.mp hm with rfl | hmem
      · rw [ha] at h; cases h
      · exact ih hmem
    · rwa [List.dropWhile_cons_of_neg ha]

theorem mem_strip_of_mem {c : Char} (h : isSpace c = false) {s : List Char}
    (hm : c ∈ s) : c ∈ strip s := by
  have h1 : c ∈ lstrip s := mem_dropWhile_of_mem h hm
  have h2 : c ∈ (lstrip s).reverse.dropWhile isSpace :=
    mem_dropWhile_of_mem h (by simpa using h1)
  simpa [strip, rstrip] using h2

theorem strip_ne_nil_of_mem {c : Char} (h : isSpace c = false) {s : List Char}
    (hm : c ∈ s) : strip s ≠ [] :=
  List.ne_nil_of_mem (mem_strip_of_mem h hm)

theorem comma_mem_combine (l f m : List Char) : ',' ∈ combine l f m := by
  apply mem_strip_of_mem (by decide)
  simp [List.mem_append]

theorem splitComma_ne_nil (s : List Char) : splitComma s ≠ [] := by
  cases s with
  | nil => simp [splitComma]
  | cons c rest =>
    unfold splitComma
    cases h : splitComma rest with
    | nil => simp
    | cons p ps => by_cases hc : c = ',' <;> simp [hc]

theorem splitComma_length (s : List Char) :
    (splitComma s).length = s.count ',' + 1 := by
  induction s with
  | nil => rfl
  | cons c rest ih =>
    unfold splitComma
    cases h : splitComma rest with
    | nil => exact absurd h (splitComma_ne_nil rest)
    | cons p ps =>
      rw [h] at ih
      simp only [List.length_cons] at ih
      show (if c = ',' then [] :: p :: ps else (c :: p) :: ps).length =
        List.count ',' (c :: rest) + 1
      by_cases hc : c = ','
      · subst hc
        simp only [if_pos rfl, List.length_cons, List.count_cons, beq_self_eq_true,
          if_true]
        omega
      · have hbeq : (c == ',') = false := beq_eq_false_iff_ne.mpr hc
        simp only [if_neg hc, List.length_cons, List.count_cons, hbeq]
        simp only [Bool.false_eq_true, if_false]
        omega

/-! ### Claim C3 -/

/-- C3 counterexample: a row whose three name parts are all missing does not
fail; `combine_name_parts` returns the one-character string `","`, because the
f-string always inserts a comma and `strip` cannot remove it. -/
theorem c3_counterexample :
    combine_name_parts [(none, none, none)] = Except.ok [[',']] := rfl

/-- C3 (amended): `combine_name_parts` never fails: for every row the combined
string contains the comma inserted by the `"{last}, {first} {middle}"` format
and is therefore non-empty, so the empty-string `InvalidName` branch is
unreachable; an all-blank row yields the string `","`. -/
theorem c3_amended_never_fails
    (rows : List (Option (List Char) × Option (List Char) × Option (List Char))) :
    ∃ out, combine_name_parts rows = Except.ok out := by
  induction rows with
  | nil => exact ⟨[], rfl⟩
  | cons row rest ih =>
    obtain ⟨l, f, m⟩ := row
    obtain ⟨out, hout⟩ := ih
    refine ⟨combine (clean_name_part l) (clean_name_part f) (clean_name_part m) :: out, ?_⟩
    unfold combine_name_parts
    rw [if_neg (List.ne_nil_of_mem (comma_mem_combine _ _ _)), hout]

/-! ### Claim C10 -/

/-- C10: an input that passes the non-emptiness and comma-count checks of
`parse_fullnames` but whose portion after the comma is blank makes the code
fail with an out-of-range index access (`parts[-1]` on an empty token list),
not with `InvalidName` and not with a result. -/
theorem c10_blank_rest_index_error (s l r : List Char)
    (h1 : strip s ≠ []) (h2 : splitComma s = [l, r]) (h3 : strip r = []) :
    splitFullname (some s) = Except.error PyErr.indexError := by
  simp only [splitFullname, if_neg h1, h2, h3, splitWs]
  rfl

/-- Witness for C10 at the concrete input `"Doe,"`. -/
theorem c10_witness :
    strip ['D', 'o', 'e', ','] ≠ [] ∧
      splitComma ['D', 'o', 'e', ','] = [['D', 'o', 'e'], []] ∧
      strip ([] : List Char) = [] ∧
      splitFullname (some ['D', 'o', 'e', ',']) = Except.error PyErr.indexError :=
  ⟨by decide, by decide, by decide,
    c10_blank_rest_index_error ['D', 'o', 'e', ','] ['D', 'o', 'e'] []
      (by decide) (by decide) (by decide)⟩

/-! ### Claim C9 -/

/-- C9: `parse_fullnames` raises `InvalidName` (a `ValueError`) for a row
exactly when the cell is not a non-empty string after trimming or its comma
count differs from one; every `InvalidName` failure comes from one of these two
defects. -/
theorem c9_invalid_name_iff (x : Option (List Char)) :
    splitFullname x = Except.error PyErr.invalidName ↔
      (x = none ∨ ∃ s, x = some s ∧ (strip s = [] ∨ s.count ',' ≠ 1)) := by
  cases x with
  | none => simp [splitFullname]
  | some s =>
    by_cases hs : strip s = []
    · simp [splitFullname, hs]
    · have hlen := splitComma_length s
      rcases hsp : splitComma s with - | ⟨a, - | ⟨b, - | ⟨c, t⟩⟩⟩
      · exact absurd hsp (splitComma_ne_nil s)
      · have hcount : s.count ',' ≠ 1 := by
          rw [hsp] at hlen
          simp at hlen
          omega
        simp [splitFullname, hs, hsp, hcount]
      · have hcount : s.count ',' = 1 := by
          rw [hsp] at hlen
          simp at hlen
          omega
        have hne : splitFullname (some s) ≠ Except.error PyErr.invalidName := by
          simp only [splitFullname, if_neg hs, hsp]
          cases hg : (splitWs (strip b)).getLast? with
          | none => simp [hg]
          | some tok =>
            by_cases hd : tok.getLast? = some '.' <;> simp [hg, hd]
        simp [hne, hs, hcount]
      · have hcount : s.count ',' ≠ 1 := by
          rw [hsp] at hlen
          simp at hlen
          omega
        simp [splitFullname, hs, hsp, hcount]

/-! ### Lemmas for the round-trip analysis -/

theorem lstrip_cons_nonspace {c : Char} (h : isSpace c = false) (cs : List Char) :
    lstrip (c :: cs) = c :: cs := by
  have hns : ¬isSpace c = true := by simp [h]
  simp [lstrip, List.dropWhile_cons_of_neg hns]

theorem rstrip_concat_nonspace {c : Char} (h : isSpace c = false) (x : List Char) :
    rstrip (x ++ [c]) = x ++ [c] := by
  have hns : ¬isSpace c = true := by simp [h]
  simp [rstrip, List.dropWhile_cons_of_neg hns]

theorem rstrip_concat_space {c : Char} (h : isSpace c = true) (x : List Char) :
    rstrip (x ++ [c]) = rstrip x := by
  simp [rstrip, List.dropWhile_cons_of_pos h]

theorem strip_eq_self {s : List Char} (h1 : lstrip s = s) (h2 : rstrip s = s) :
    strip s = s := by
  rw [strip, h1, h2]

theorem lstrip_eq_self_of_strip {l : List Char} (h : strip l = l) : lstrip l = l := by
  have hsub : List.Sublist (lstrip l) l := l.dropWhile_sublist isSpace
  have hsub2 : List.Sublist (strip l) (lstrip l) := by
    have hr : List.Sublist ((lstrip l).reverse.dropWhile isSpace) (lstrip l).reverse :=
      (lstrip l).reverse.dropWhile_sublist isSpace
    have := hr.reverse
    simpa [strip, rstrip] using this
  have hlen : (lstrip l).length = l.length := by
    have g1 := hsub.length_le
    have g2 := hsub2.length_le
    rw [h] at g2
    omega
  exact hsub.eq_of_length hlen

theorem rstrip_eq_self_of_strip {l : List Char} (h : strip l = l) : rstrip l = l := by
  have hl := lstrip_eq_self_of_strip h
  rw [strip, hl] at h
  exact h

theorem exists_head_nonspace {l : List Char} (h : lstrip l = l) (hne : l ≠ []) :
    ∃ c cs, l = c :: cs ∧ isSpace c = false := by
  obtain ⟨c, cs, rfl⟩ := List.exists_cons_of_ne_nil hne
  refine ⟨c, cs, rfl, ?_⟩
  by_cases hc : isSpace c
  · exfalso
    rw [lstrip, List.dropWhile_cons_of_pos hc] at h
    have := (cs.dropWhile_sublist isSpace).length_le
    rw [h] at this
    simp at this
  · simpa using hc

theorem exists_concat_nonspace {l : List Char} (h : rstrip l = l) (hne : l ≠ []) :
    ∃ y c, l = y ++ [c] ∧ isSpace c = false := by
  have hrev : lstrip l.reverse = l.reverse := by
    have : (l.reverse.dropWhile isSpace).reverse = l := h
    have h2 := congrArg List.reverse this
    simpa [lstrip] using h2
  obtain ⟨c, cs, heq, hc⟩ :=
    exists_head_nonspace hrev (by simpa using hne)
  refine ⟨cs.reverse, c, ?_, hc⟩
  have := congrArg List.reverse heq
  simpa using this

theorem joinSpace_head (toks : List (List Char)) (hne : toks ≠ [])
    (hgood : ∀ t ∈ toks, goodToken t) :
    ∃ c cs, joinSpace toks = c :: cs ∧ isSpace c = false := by
  match toks with
  | [t] =>
    obtain ⟨htne, hch⟩ := hgood t (by simp)
    obtain ⟨c, cs, rfl⟩ := List.exists_cons_of_ne_nil htne
    exact ⟨c, cs, rfl, (hch c (by simp)).1⟩
  | t :: t' :: ts =>
    obtain ⟨htne, hch⟩ := hgood t (by simp)
    obtain ⟨c, cs, rfl⟩ := List.exists_cons_of_ne_nil htne
    exact ⟨c, cs ++ ' ' :: joinSpace (t' :: ts), by simp [joinSpace], (hch c (by simp)).1⟩

theorem joinSpace_concat : ∀ (toks : List (List Char)), toks ≠ [] →
    (∀ t ∈ toks, goodToken t) →
    ∃ y c, joinSpace toks = y ++ [c] ∧ isSpace c = false
  | [t], _, hgood => by
    obtain ⟨htne, hch⟩ := hgood t (by simp)
    obtain ⟨y, c, hey⟩ := (List.eq_nil_or_concat t).resolve_left htne
    exact ⟨y, c, by simpa [joinSpace] using hey,
      (hch c (by rw [hey]; simp)).1⟩
  | t :: t' :: ts, _, hgood => by
    obtain ⟨y, c, hey, hc⟩ := joinSpace_concat (t' :: ts) (by simp)
      (fun u hu => hgood u (by simp [hu]))
    refine ⟨t ++ ' ' :: y, c, ?_, hc⟩
    simp [joinSpace, hey]

theorem joinSpace_no_comma : ∀ (toks : List (List Char)),
    (∀ t ∈ toks, goodToken t) → ∀ c ∈ joinSpace toks, c ≠ ','
  | [], _, c, hc => by simp [joinSpace] at hc
  | [t], hgood, c, hc =>
    ((hgood t (by simp)).2 c (by simpa [joinSpace] using hc)).2
  | t :: t' :: ts, hgood, c, hc => by
    rw [joinSpace] at hc
    rcases List.mem_append.mp hc with h1 | h2
    · exact ((hgood t (by simp)).2 c h1).2
    · rcases List.mem_cons.mp h2 with rfl | h3
      · decide
      · exact joinSpace_no_comma (t' :: ts) (fun u hu => hgood u (by simp [hu])) c h3

theorem takeWhile_dropWhile_all {p : Char → Bool} :
    ∀ (xs : List Char), (∀ c ∈ xs, p c = true) →
      xs.takeWhile p = xs ∧ xs.dropWhile p = []
  | [], _ => ⟨rfl, rfl⟩
  | c :: cs, h => by
    have hc : p c = true := h c (by simp)
    have ih := takeWhile_dropWhile_all cs fun x hx => h x (by simp [hx])
    rw [List.takeWhile_cons, List.dropWhile_cons]
    simp [hc, ih.1, ih.2]

theorem takeWhile_dropWhile_append {p : Char → Bool} :
    ∀ (xs : List Char) (x : Char) (r : List Char),
      (∀ c ∈ xs, p c = true) → p x = false →
      (xs ++ x :: r).takeWhile p = xs ∧ (xs ++ x :: r).dropWhile p = x :: r
  | [], x, r, _, hx => by
    rw [List.nil_append, List.takeWhile_cons, List.dropWhile_cons]
    simp [hx]
  | c :: cs, x, r, h, hx => by
    have hc : p c = true := h c (by simp)
    have ih := takeWhile_dropWhile_append cs x r (fun u hu => h u (by simp [hu])) hx
    rw [List.cons_append, List.takeWhile_cons, List.dropWhile_cons]
    simp [hc, ih.1, ih.2]

theorem splitWs_space {c : Char} (h : isSpace c = true) (r : List Char) :
    splitWs (c :: r) = splitWs r := by
  rw [splitWs]
  simp [h]

theorem splitWs_token (t : List Char) (hne : t ≠ [])
    (hsf : ∀ c ∈ t, isSpace c = false) : splitWs t = [t] := by
  obtain ⟨c, cs, rfl⟩ := List.exists_cons_of_ne_nil hne
  have hc : isSpace c = false := hsf c (by simp)
  have hall := takeWhile_dropWhile_all (p := fun x => !isSpace x) cs
    (fun u hu => by simp [hsf u (by simp [hu])])
  rw [splitWs]
  simp only [hc, Bool.false_eq_true, if_false, hall.1, hall.2]
  rw [splitWs]

theorem splitWs_token_append (t : List Char) (hne : t ≠ [])
    (hsf : ∀ c ∈ t, isSpace c = false) (r : List Char) :
    splitWs (t ++ ' ' :: r) = t :: splitWs r := by
  obtain ⟨c, cs, rfl⟩ := List.exists_cons_of_ne_nil hne
  have hc : isSpace c = false := hsf c (by simp)
  have happ := takeWhile_dropWhile_append (p := fun x => !isSpace x) cs ' ' r
    (fun u hu => by simp [hsf u (by simp [hu])]) (by decide)
  rw [List.cons_append, splitWs]
  simp only [hc, Bool.false_eq_true, if_false, happ.1, happ.2]
  rw [splitWs_space (by decide)]

theorem splitWs_join : ∀ (toks : List (List Char)),
    (∀ t ∈ toks, goodToken t) → splitWs (joinSpace toks) = toks
  | [], _ => by rw [joinSpace, splitWs]
  | [t], hgood => by
    obtain ⟨htne, hch⟩ := hgood t (by simp)
    rw [joinSpace]
    exact splitWs_token t htne fun c hc => (hch c hc).1
  | t :: t' :: ts, hgood => by
    obtain ⟨htne, hch⟩ := hgood t (by simp)
    rw [joinSpace, splitWs_token_append t htne (fun c hc => (hch c hc).1)]
    rw [splitWs_join (t' :: ts) fun u hu => hgood u (by simp [hu])]

theorem splitWs_join_append : ∀ (toks : List (List Char)),
    (∀ t ∈ toks, goodToken t) → ∀ (r : List Char),
      splitWs (joinSpace toks ++ ' ' :: r) = toks ++ splitWs r
  | [], _, r => by
    rw [joinSpace, List.nil_append, splitWs_space (by decide), List.nil_append]
  | [t], hgood, r => by
    obtain ⟨htne, hch⟩ := hgood t (by simp)
    rw [joinSpace, splitWs_token_append t htne (fun c hc => (hch c hc).1)]
    rfl
  | t :: t' :: ts, hgood, r => by
    obtain ⟨htne, hch⟩ := hgood t (by simp)
    rw [joinSpace, List.append_assoc, List.cons_append,
      splitWs_token_append t htne (fun c hc => (hch c hc).1),
      splitWs_join_append (t' :: ts) (fun u hu => hgood u (by simp [hu])) r]
    rfl

theorem splitComma_no_comma : ∀ (s : List Char), (∀ c ∈ s, c ≠ ',') →
    splitComma s = [s]
  | [], _ => rfl
  | c :: cs, h => by
    rw [splitComma, splitComma_no_comma cs fun u hu => h u (by simp [hu])]
    simp [h c (by simp)]

theorem splitComma_pair : ∀ (l r : List Char), (∀ c ∈ l, c ≠ ',') →
    (∀ c ∈ r, c ≠ ',') → splitComma (l ++ ',' :: r) = [l, r]
  | [], r, _, hr => by
    rw [List.nil_append, splitComma, splitComma_no_comma r hr]
    simp
  | c :: l', r, hl, hr => by
    rw [List.cons_append, splitComma,
      splitComma_pair l' r (fun u hu => hl u (by simp [hu])) hr]
    simp [hl c (by simp)]

theorem lstrip_cons_space {c : Char} (h : isSpace c = true) (r : List Char) :
    lstrip (c :: r) = lstrip r := by
  simp [lstrip, List.dropWhile_cons_of_pos h]

/-- Core round-trip computation: under the stated well-formedness conditions on
the three parts, splitting the combined string recovers them exactly. -/
theorem splitFullname_combine (l : List Char) (toks : List (List Char)) (m : List Char)
    (hl1 : strip l = l) (hl2 : l ≠ []) (hl3 : ∀ c ∈ l, c ≠ ',')
    (ht : toks ≠ []) (hgood : ∀ t ∈ toks, goodToken t)
    (hm : (m = [] ∧ (toks.getLast ht).getLast? ≠ some '.') ∨
          (goodToken m ∧ m.getLast? = some '.')) :
    splitFullname (some (combine l (joinSpace toks) m)) =
      Except.ok ⟨l, joinSpace toks, m⟩ := by
  obtain ⟨c0, l0, hl0, hc0⟩ := exists_head_nonspace (lstrip_eq_self_of_strip hl1) hl2
  obtain ⟨jc, jrest, hJh, hjc⟩ := joinSpace_head toks ht hgood
  obtain ⟨jy, jl, hJc, hjl⟩ := joinSpace_concat toks ht hgood
  have hJnc : ∀ c ∈ joinSpace toks, c ≠ ',' := joinSpace_no_comma toks hgood
  have htl : toks.getLast? = some (toks.getLast ht) := List.getLast?_eq_getLast toks ht
  rcases hm with ⟨rfl, hnd⟩ | ⟨⟨hmne, hmch⟩, hdot⟩
  · -- middle is empty: the dangling space is trimmed away by combine
    have hcomb : combine l (joinSpace toks) [] = l ++ ',' :: ' ' :: joinSpace toks := by
      rw [combine]
      have e1 : l ++ [',', ' '] ++ joinSpace toks ++ [' '] ++ ([] : List Char) =
          c0 :: ((l0 ++ ',' :: ' ' :: joinSpace toks) ++ [' ']) := by
        rw [hl0]; simp
      rw [e1, strip, lstrip_cons_nonspace hc0]
      have e2 : c0 :: ((l0 ++ ',' :: ' ' :: joinSpace toks) ++ [' ']) =
          (c0 :: (l0 ++ ',' :: ' ' :: joinSpace toks)) ++ [' '] := by simp
      rw [e2, rstrip_concat_space (by decide)]
      have e3 : c0 :: (l0 ++ ',' :: ' ' :: joinSpace toks) =
          (c0 :: (l0 ++ [',', ' '] ++ jy)) ++ [jl] := by
        rw [hJc]; simp
      rw [e3, rstrip_concat_nonspace hjl, ← e3, hl0]
      simp
    have hs1 : lstrip (l ++ ',' :: ' ' :: joinSpace toks) =
        l ++ ',' :: ' ' :: joinSpace toks := by
      rw [hl0, List.cons_append, lstrip_cons_nonspace hc0]
    have hs2 : rstrip (l ++ ',' :: ' ' :: joinSpace toks) =
        l ++ ',' :: ' ' :: joinSpace toks := by
      have e : l ++ ',' :: ' ' :: joinSpace toks = (l ++ [',', ' '] ++ jy) ++ [jl] := by
        rw [hJc]; simp
      rw [e, rstrip_concat_nonspace hjl]
    have hsne : strip (l ++ ',' :: ' ' :: joinSpace toks) ≠ [] := by
      rw [strip_eq_self hs1 hs2, hl0]
      simp
    have hnc2 : ∀ c ∈ ' ' :: joinSpace toks, c ≠ ',' := by
      intro c hc
      rcases List.mem_cons.mp hc with rfl | hmem
      · decide
      · exact hJnc c hmem
    have hsplit : splitComma (l ++ ',' :: ' ' :: joinSpace toks) =
        [l, ' ' :: joinSpace toks] :=
      splitComma_pair l (' ' :: joinSpace toks) hl3 hnc2
    have hlst1 : lstrip (' ' :: joinSpace toks) = joinSpace toks := by
      rw [lstrip_cons_space (by decide), hJh, lstrip_cons_nonspace hjc]
    have hrst1 : rstrip (joinSpace toks) = joinSpace toks := by
      rw [hJc, rstrip_concat_nonspace hjl]
    have hrest : strip (' ' :: joinSpace toks) = joinSpace toks := by
      rw [strip, hlst1, hrst1]
    have hparts : splitWs (joinSpace toks) = toks := splitWs_join toks hgood
    rw [hcomb]
    simp only [splitFullname, if_neg hsne, hsplit, hl1, hrest, hparts, htl]
    rw [if_neg hnd]
  · -- middle is a period-terminated token
    obtain ⟨my, mc, hmeq⟩ := (List.eq_nil_or_concat m).resolve_left hmne
    have hmcns : isSpace mc = false := (hmch mc (by rw [hmeq]; simp)).1
    have hmnc : ∀ c ∈ m, c ≠ ',' := fun c hc => (hmch c hc).2
    have hcomb : combine l (joinSpace toks) m =
        l ++ ',' :: ' ' :: (joinSpace toks ++ ' ' :: m) := by
      rw [combine]
      have e1 : l ++ [',', ' '] ++ joinSpace toks ++ [' '] ++ m =
          c0 :: (l0 ++ ',' :: ' ' :: (joinSpace toks ++ ' ' :: m)) := by
        rw [hl0]; simp
      rw [e1, strip, lstrip_cons_nonspace hc0]
      have e2 : c0 :: (l0 ++ ',' :: ' ' :: (joinSpace toks ++ ' ' :: m)) =
          (c0 :: (l0 ++ ',' :: ' ' :: (joinSpace toks ++ ' ' :: my))) ++ [mc] := by
        rw [hmeq]; simp
      rw [e2, rstrip_concat_nonspace hmcns, ← e2, hl0]
      simp
    have hs1 : lstrip (l ++ ',' :: ' ' :: (joinSpace toks ++ ' ' :: m)) =
        l ++ ',' :: ' ' :: (joinSpace toks ++ ' ' :: m) := by
      rw [hl0, List.cons_append, lstrip_cons_nonspace hc0]
    have hs2 : rstrip (l ++ ',' :: ' ' :: (joinSpace toks ++ ' ' :: m)) =
        l ++ ',' :: ' ' :: (joinSpace toks ++ ' ' :: m) := by
      have e : l ++ ',' :: ' ' :: (joinSpace toks ++ ' ' :: m) =
          (l ++ ',' :: ' ' :: (joinSpace toks ++ ' ' :: my)) ++ [mc] := by
        rw [hmeq]; simp
      rw [e, rstrip_concat_nonspace hmcns]
    have hsne : strip (l ++ ',' :: ' ' :: (joinSpace toks ++ ' ' :: m)) ≠ [] := by
      rw [strip_eq_self hs1 hs2, hl0]
      simp
    have hnc2 : ∀ c ∈ ' ' :: (joinSpace toks ++ ' ' :: m), c ≠ ',' := by
      intro c hc
      rcases List.mem_cons.mp hc with rfl | hmem
      · decide
      · rcases List.mem_append.mp hmem with h1 | h2
        · exact hJnc c h1
        · rcases List.mem_cons.mp h2 with rfl | h3
          · decide
          · exact hmnc c h3
    have hsplit : splitComma (l ++ ',' :: ' ' :: (joinSpace toks ++ ' ' :: m)) =
        [l, ' ' :: (joinSpace toks ++ ' ' :: m)] :=
      splitComma_pair l (' ' :: (joinSpace toks ++ ' ' :: m)) hl3 hnc2
    have hlst1 : lstrip (' ' :: (joinSpace toks ++ ' ' :: m)) =
        joinSpace toks ++ ' ' :: m := by
      rw [lstrip_cons_space (by decide)]
      have e : joinSpace toks ++ ' ' :: m = jc :: (jrest ++ ' ' :: m) := by
        rw [hJh]; simp
      rw [e, lstrip_cons_nonspace hjc]
    have hrst1 : rstrip (joinSpace toks ++ ' ' :: m) = joinSpace toks ++ ' ' :: m := by
      have e : joinSpace toks ++ ' ' :: m = (joinSpace toks ++ ' ' :: my) ++ [mc] := by
        rw [hmeq]; simp
      rw [e, rstrip_concat_nonspace hmcns]
    have hrest : strip (' ' :: (joinSpace toks ++ ' ' :: m)) =
        joinSpace toks ++ ' ' :: m := by
      rw [strip, hlst1, hrst1]
    have hsplitm : splitWs m = [m] :=
      splitWs_token m hmne fun c hc => (hmch c hc).1
    have hparts : splitWs (joinSpace toks ++ ' ' :: m) = toks ++ [m] := by
      rw [splitWs_join_append toks hgood m, hsplitm]
    have hlastp : (toks ++ [m]).getLast? = some m := by simp
    rw [hcomb]
    simp only [splitFullname, if_neg hsne, hsplit, hl1, hrest, hparts, hlastp]
    rw [if_pos hdot]
    simp

/-! ### Claim C1 -/

/-- C1 counterexample: the triple ("Doe", "Jane", "X") is a valid PersonName
for the claim (last and first non-empty after trimming, middle may be any
string), yet `split(combine("Doe", "Jane", "X"))` returns
("Doe", "Jane X", "") because the middle part lacks a trailing period, so the
round-trip law fails as stated. -/
theorem c1_counterexample :
    strip ['D', 'o', 'e'] ≠ [] ∧ strip ['J', 'a', 'n', 'e'] ≠ [] ∧
      splitFullname (some (combine ['D', 'o', 'e'] ['J', 'a', 'n', 'e'] ['X'])) ≠
        Except.ok ⟨['D', 'o', 'e'], ['J', 'a', 'n', 'e'], ['X']⟩ := by
  refine ⟨by decide, by decide, ?_⟩
  have h1 : combine ['D', 'o', 'e'] ['J', 'a', 'n', 'e'] ['X'] =
      combine ['D', 'o', 'e'] ['J', 'a', 'n', 'e', ' ', 'X'] [] := by decide
  have h2 := splitFullname_combine ['D', 'o', 'e'] [['J', 'a', 'n', 'e'], ['X']] []
    (by decide) (by decide) (by decide) (by decide)
    (by decide) (Or.inl ⟨rfl, by decide⟩)
  have h3 : joinSpace [['J', 'a', 'n', 'e'], ['X']] = ['J', 'a', 'n', 'e', ' ', 'X'] := by
    decide
  rw [h3] at h2
  rw [h1, h2]
  decide

/-- C1 (amended): the round-trip law `split(combine(last, first, middle)) =
(last, first, middle)` holds for every PersonName whose last name is trimmed,
non-empty and comma-free, whose first name is a non-empty sequence of
whitespace-free comma-free words joined by single spaces, and whose middle is
either empty (with the first name's final word not ending in a period) or a
single whitespace-free comma-free token ending in a period.  Outside these
conditions the law can fail, as the counterexample shows. -/
theorem c1_roundtrip_amended (l f m : List Char) (toks : List (List Char))
    (hl1 : strip l = l) (hl2 : l ≠ []) (hl3 : ∀ c ∈ l, c ≠ ',')
    (ht : toks ≠ []) (hgood : ∀ t ∈ toks, goodToken t) (hf : f = joinSpace toks)
    (hm : (m = [] ∧ (toks.getLast ht).getLast? ≠ some '.') ∨
          (goodToken m ∧ m.getLast? = some '.')) :
    splitFullname (some (combine l f m)) = Except.ok ⟨l, f, m⟩ := by
  subst hf
  exact splitFullname_combine l toks m hl1 hl2 hl3 ht hgood hm

/-- Witness for C1 (amended) at ("Doe", "Jane", "M."). -/
theorem c1_roundtrip_witness :
    strip ['D', 'o', 'e'] = ['D', 'o', 'e'] ∧
      ['J', 'a', 'n', 'e'] = joinSpace [['J', 'a', 'n', 'e']] ∧
      goodToken ['M', '.'] ∧
      splitFullname (some (combine ['D', 'o', 'e'] ['J', 'a', 'n', 'e'] ['M', '.'])) =
        Except.ok ⟨['D', 'o', 'e'], ['J', 'a', 'n', 'e'], ['M', '.']⟩ :=
  ⟨by decide, by decide, by decide,
    c1_roundtrip_amended ['D', 'o', 'e'] ['J', 'a', 'n', 'e'] ['M', '.']
      [['J', 'a', 'n', 'e']] (by decide) (by decide) (by decide) (by decide)
      (by decide) (by decide) (Or.inr ⟨by decide, by decide⟩)⟩

/-! ### Lemmas on the descending stable sort -/

theorem insertDesc_perm {α : Type} (key : α → ℚ) (a : α) :
    ∀ l : List α, (insertDesc key a l).Perm (a :: l)
  | [] => List.Perm.refl _
  | b :: bs => by
    rw [insertDesc]
    by_cases h : key b ≤ key a
    · rw [if_pos h]
    · rw [if_neg h]
      exact ((insertDesc_perm key a bs).cons b).trans (List.Perm.swap a b bs)

theorem sortDesc_perm {α : Type} (key : α → ℚ) :
    ∀ l : List α, (sortDesc key l).Perm l
  | [] => List.Perm.refl _
  | a :: as => (insertDesc_perm key a (sortDesc key as)).trans
      ((sortDesc_perm key as).cons a)

theorem insertDesc_pairwise {α : Type} (key : α → ℚ) (a : α) :
    ∀ l : List α, l.Pairwise (fun x y => key y ≤ key x) →
      (insertDesc key a l).Pairwise (fun x y => key y ≤ key x)
  | [], _ => by simp [insertDesc]
  | b :: bs, hp => by
    rw [insertDesc]
    rcases List.pairwise_cons.mp hp with ⟨hb, hbs⟩
    by_cases h : key b ≤ key a
    · rw [if_pos h]
      refine List.pairwise_cons.mpr ⟨?_, hp⟩
      intro x hx
      rcases List.mem_cons.mp hx with rfl | hmem
      · exact h
      · exact le_trans (hb x hmem) h
    · rw [if_neg h]
      refine List.pairwise_cons.mpr ⟨?_, insertDesc_pairwise key a bs hbs⟩
      intro x hx
      rcases List.mem_cons.mp ((insertDesc_perm key a bs).mem_iff.mp hx) with rfl | hmem2
      · exact le_of_not_le h
      · exact hb x hmem2

theorem sortDesc_pairwise {α : Type} (key : α → ℚ) :
    ∀ l : List α, (sortDesc key l).Pairwise (fun x y => key y ≤ key x)
  | [] => by simp [sortDesc]
  | a :: as => insertDesc_pairwise key a _ (sortDesc_pairwise key as)

/-- Two lists that are permutations of each other, both sorted by `key`
descending, with pairwise-distinct keys, are equal. -/
theorem eq_of_perm_pairwise_nodup_keys {α : Type} (key : α → ℚ) :
    ∀ (l1 l2 : List α), l1.Perm l2 →
      l1.Pairwise (fun x y => key y ≤ key x) →
      l2.Pairwise (fun x y => key y ≤ key x) →
      (l1.map key).Nodup → l1 = l2
  | [], l2, hp, _, _, _ => hp.symm.eq_nil.symm
  | a :: t1, l2, hp, hp1, hp2, hnd => by
    cases l2 with
    | nil => exact absurd hp.eq_nil (by simp)
    | cons b t2 =>
      rcases List.pairwise_cons.mp hp1 with ⟨ha, hp1t⟩
      rcases List.pairwise_cons.mp hp2 with ⟨hb, hp2t⟩
      rcases (by simpa using hnd :
          (∀ x ∈ t1, ¬key x = key a) ∧ (t1.map key).Nodup) with ⟨hka, hndt⟩
      have hab : a = b := by
        rcases List.mem_cons.mp (hp.mem_iff.mpr (List.mem_cons_self b t2)) with rfl | hbt1
        · rfl
        · rcases List.mem_cons.mp (hp.mem_iff.mp (List.mem_cons_self a t1)) with heq | hat2
          · exact heq
          · exfalso
            have hkey : key a = key b := le_antisymm (hb a hat2) (ha b hbt1)
            exact hka b hbt1 hkey.symm
      subst hab
      rw [eq_of_perm_pairwise_nodup_keys key t1 t2 hp.cons_inv hp1t hp2t hndt]

theorem close_matches_map_fst (o : List (List Char)) (t : ℚ) (q : List Char) :
    (close_matches o t q).map Prod.fst = o.filter fun x => t ≤ ratio q x := by
  rw [close_matches, List.map_map]
  have h : (Prod.fst ∘ fun existing : List Char => (existing, ratio q existing)) =
      fun x => x := rfl
  rw [h]
  exact List.map_id' _

/-! ### Claim C5 -/

/-- C5 counterexample: `find_potential_duplicates` itself performs no threshold
validation: called directly with threshold 5 (outside [0,1]) it happily matches
and returns a report instead of failing with `InvalidThreshold`. -/
theorem c5_counterexample :
    (1 : ℚ) < 5 ∧
      find_potential_duplicates [some ['a']] [some ['a']] 5 [['a']] =
        Except.ok [⟨['a'], MatchType.exact, 1, [['a']]⟩] :=
  ⟨by norm_num, by decide⟩

/-- C5 (amended): the threshold range check lives only in the `__main__`
command-line entry point, which rejects a threshold outside [0,1] with a
`ValueError` before any matching work; the matcher function itself accepts any
threshold. -/
theorem c5_amended_cli_guard (names1 names2 : List (Option (List Char)))
    (threshold : ℚ) (o : List (List Char))
    (h : threshold < 0 ∨ 1 < threshold) :
    run_cli names1 names2 threshold o = Except.error PyErr.invalidThreshold := by
  rw [run_cli, if_pos h]

/-- Witness for C5 (amended) at threshold 2. -/
theorem c5_witness :
    ((2 : ℚ) < 0 ∨ (1 : ℚ) < 2) ∧
      run_cli [] [] 2 [] = Except.error PyErr.invalidThreshold :=
  ⟨Or.inr (by norm_num), c5_amended_cli_guard [] [] 2 [] (Or.inr (by norm_num))⟩

/-! ### Claim C6 -/

/-- C6: exact-match precedence: when a cleaned query name occurs in the cleaned
reference set, the report always contains the candidate with match type exact,
similarity 1 and the single-element match list, whatever the threshold. -/
theorem c6_exact_precedence (names1 names2 : List (Option (List Char)))
    (threshold : ℚ) (o : List (List Char)) (hv : validOrder names2 o)
    (ht0 : 0 ≤ threshold) (ht1 : threshold ≤ 1)
    (n : List Char) (hq : n ∈ cleanedList names1) (hr : n ∈ cleanedList names2) :
    ∃ rep, find_potential_duplicates names1 names2 threshold o = Except.ok rep ∧
      (⟨n, MatchType.exact, 1, [n]⟩ : MatchCandidate) ∈ rep := by
  have hno : n ∈ o := hv.2.2 n hr
  have hpq : processQuery o threshold n = some ⟨n, MatchType.exact, 1, [n]⟩ := by
    rw [processQuery, if_pos hno]
  have hmem : (⟨n, MatchType.exact, 1, [n]⟩ : MatchCandidate) ∈
      (cleanedList names1).filterMap (processQuery o threshold) :=
    List.mem_filterMap.mpr ⟨n, hq, hpq⟩
  have hne : ¬((cleanedList names1).filterMap (processQuery o threshold)).isEmpty = true := by
    intro hcon
    rw [List.isEmpty_iff] at hcon
    rw [hcon] at hmem
    simp at hmem
  refine ⟨sortDesc (fun c => c.similarity)
    ((cleanedList names1).filterMap (processQuery o threshold)), ?_, ?_⟩
  · rw [find_potential_duplicates, if_neg hne]
  · exact (sortDesc_perm _ _).mem_iff.mpr hmem

/-- Witness for C6 on the one-element query and reference list ["ab"]. -/
theorem c6_witness :
    validOrder [some ['a', 'b']] [['a', 'b']] ∧
      ∃ rep, find_potential_duplicates [some ['a', 'b']] [some ['a', 'b']] (3/4)
          [['a', 'b']] = Except.ok rep ∧
        (⟨['a', 'b'], MatchType.exact, 1, [['a', 'b']]⟩ : MatchCandidate) ∈ rep :=
  ⟨by decide,
    c6_exact_precedence [some ['a', 'b']] [some ['a', 'b']] (3/4) [['a', 'b']]
      (by decide) (by norm_num) (by norm_num) ['a', 'b'] (by decide) (by decide)⟩

/-! ### Claim C7 -/

/-- C7: threshold monotonicity: for a fixed query and reference order, every
reference string qualifying as a fuzzy match at the higher threshold also
qualifies at the lower one. -/
theorem c7_threshold_monotone (q : List Char) (o : List (List Char)) (t1 t2 : ℚ)
    (h0 : 0 ≤ t1) (h12 : t1 ≤ t2) (h1 : t2 ≤ 1) (e : List Char)
    (he : e ∈ (close_matches o t2 q).map Prod.fst) :
    e ∈ (close_matches o t1 q).map Prod.fst := by
  rw [close_matches_map_fst] at he ⊢
  rw [List.mem_filter] at he ⊢
  refine ⟨he.1, ?_⟩
  have h2 : t2 ≤ ratio q e := by simpa using he.2
  simpa using le_trans h12 h2

/-- Witness for C7 with query "ab", reference "ac", thresholds 2/5 ≤ 1/2. -/
theorem c7_witness :
    (0 : ℚ) ≤ mkRat 2 5 ∧ mkRat 2 5 ≤ mkRat 1 2 ∧ mkRat 1 2 ≤ (1 : ℚ) ∧
      ['a', 'c'] ∈ (close_matches [['a', 'c']] (mkRat 1 2) ['a', 'b']).map Prod.fst ∧
      ['a', 'c'] ∈ (close_matches [['a', 'c']] (mkRat 2 5) ['a', 'b']).map Prod.fst :=
  ⟨by decide, by decide, by decide, by decide,
    c7_threshold_monotone ['a', 'b'] [['a', 'c']] (mkRat 2 5) (mkRat 1 2)
      (by decide) (by decide) (by decide) ['a', 'c'] (by decide)⟩

/-! ### Claim C8 -/

/-- C8: global ordering: whenever the matcher returns a report, the report is
sorted by similarity descending, so each entry's similarity is at least the
next entry's. -/
theorem c8_report_sorted (names1 names2 : List (Option (List Char))) (threshold : ℚ)
    (o : List (List Char)) (rep : List MatchCandidate)
    (h : find_potential_duplicates names1 names2 threshold o = Except.ok rep) :
    List.Chain' (fun a b => b.similarity ≤ a.similarity) rep := by
  rw [find_potential_duplicates] at h
  by_cases hres : ((cleanedList names1).filterMap (processQuery o threshold)).isEmpty
  · rw [if_pos hres] at h
    cases h
  · rw [if_neg hres] at h
    injection h with h
    rw [← h]
    exact (sortDesc_pairwise _ _).chain'

/-- Witness for C8 on a report produced from one exact match. -/
theorem c8_witness :
    List.Chain' (fun a b => b.similarity ≤ a.similarity)
      [(⟨['a', 'b'], MatchType.exact, 1, [['a', 'b']]⟩ : MatchCandidate)] :=
  c8_report_sorted [some ['a', 'b']] [some ['a', 'b']] (1/2) [['a', 'b']]
    [⟨['a', 'b'], MatchType.exact, 1, [['a', 'b']]⟩] (by decide)

/-! ### Claim C2 -/

set_option maxRecDepth 40000 in
/-- C2: the matcher is not total on data content.  At spec scenario 5 (query
"zed, nobody", reference "alpha, somebody", threshold 0.9) the similarity is
7/13 < 0.9, no candidate is produced, `results` is empty, and
`pd.DataFrame([]).sort_values(by="similarity", ...)` raises `KeyError` because
the empty frame has no `similarity` column — the code does not return the
empty report the claim promises. -/
theorem c2_empty_results_keyerror :
    validOrder
        [some ['a', 'l', 'p', 'h', 'a', ',', ' ', 's', 'o', 'm', 'e', 'b', 'o', 'd', 'y']]
        [['a', 'l', 'p', 'h', 'a', ',', ' ', 's', 'o', 'm', 'e', 'b', 'o', 'd', 'y']] ∧
      find_potential_duplicates
          [some ['z', 'e', 'd', ',', ' ', 'n', 'o', 'b', 'o', 'd', 'y']]
          [some ['a', 'l', 'p', 'h', 'a', ',', ' ', 's', 'o', 'm', 'e', 'b', 'o', 'd', 'y']]
          (mkRat 9 10)
          [['a', 'l', 'p', 'h', 'a', ',', ' ', 's', 'o', 'm', 'e', 'b', 'o', 'd', 'y']] =
        Except.error PyErr.keyError :=
  ⟨by decide, by decide⟩

/-! ### Claim C4 -/

/-- Congruence of the per-query step in the iteration order of the reference
set, provided no two distinct references tie in similarity to the query. -/
theorem processQuery_congr (o1 o2 : List (List Char)) (t : ℚ) (q : List Char)
    (hperm : o1.Perm o2) (hnd : o1.Nodup)
    (hinj : ∀ e1 ∈ o1, ∀ e2 ∈ o1, ratio q e1 = ratio q e2 → e1 = e2) :
    processQuery o1 t q = processQuery o2 t q := by
  rw [processQuery, processQuery]
  by_cases hq : q ∈ o1
  · rw [if_pos hq, if_pos (hperm.mem_iff.mp hq)]
  · rw [if_neg hq, if_neg fun hc => hq (hperm.mem_iff.mpr hc)]
    have hpc : (close_matches o1 t q).Perm (close_matches o2 t q) :=
      (hperm.filter _).map _
    have hs : sortDesc (fun p => p.2) (close_matches o1 t q) =
        sortDesc (fun p => p.2) (close_matches o2 t q) := by
      apply eq_of_perm_pairwise_nodup_keys (fun p : List Char × ℚ => p.2)
      · exact ((sortDesc_perm _ _).trans hpc).trans (sortDesc_perm _ _).symm
      · exact sortDesc_pairwise _ _
      · exact sortDesc_pairwise _ _
      · have hkeys : ((close_matches o1 t q).map fun p : List Char × ℚ => p.2) =
            (o1.filter fun x => t ≤ ratio q x).map fun x => ratio q x := by
          rw [close_matches, List.map_map]
          rfl
        have hnd2 : ((close_matches o1 t q).map fun p : List Char × ℚ => p.2).Nodup := by
          rw [hkeys]
          exact (hnd.filter _).map_on fun x hx y hy hxy =>
            hinj x (List.mem_of_mem_filter hx) y (List.mem_of_mem_filter hy) hxy
        have hmp : ((sortDesc (fun p : List Char × ℚ => p.2) (close_matches o1 t q)).map
              fun p : List Char × ℚ => p.2).Perm
            ((close_matches o1 t q).map fun p : List Char × ℚ => p.2) :=
          (sortDesc_perm _ _).map _
        exact hmp.nodup_iff.mpr hnd2
    by_cases hemp : close_matches o1 t q = []
    · have hemp2 : close_matches o2 t q = [] := by
        rw [hemp] at hpc
        exact hpc.symm.eq_nil
      rw [hemp, hemp2]
    · have hemp2 : close_matches o2 t q ≠ [] := fun hc => hemp (by
        rw [hc] at hpc
        exact hpc.eq_nil)
      rw [if_neg (by simpa using hemp), if_neg (by simpa using hemp2), hs]

/-- C4 counterexample: the reference strings "ac" and "cb" both have similarity
1/2 to the query "ab"; with threshold 1/2 both qualify, and two valid iteration
orders of the same reference set produce reports whose matches lists are in
different orders.  The code's tie-break is the Python set iteration order,
which is hash-dependent and not fixed, so the claimed determinism (e.g. a
lexicographic tie-break) does not hold. -/
theorem c4_counterexample :
    validOrder [some ['a', 'c'], some ['c', 'b']] [['a', 'c'], ['c', 'b']] ∧
      validOrder [some ['a', 'c'], some ['c', 'b']] [['c', 'b'], ['a', 'c']] ∧
      find_potential_duplicates [some ['a', 'b']] [some ['a', 'c'], some ['c', 'b']]
          (mkRat 1 2) [['a', 'c'], ['c', 'b']] ≠
        find_potential_duplicates [some ['a', 'b']] [some ['a', 'c'], some ['c', 'b']]
          (mkRat 1 2) [['c', 'b'], ['a', 'c']] :=
  ⟨by decide, by decide, by decide⟩

/-- C4 (amended): the matcher is deterministic only relative to the iteration
order of the deduplicated reference set, which the code leaves to Python's
hash-based set.  When no two distinct reference strings tie in similarity to
any query, the report is independent of that order; when ties occur, different
set orders can permute a candidate's matches list, as the counterexample
shows — no lexicographic tie-break is implemented. -/
theorem c4_amended_order_independent (names1 names2 : List (Option (List Char)))
    (threshold : ℚ) (o1 o2 : List (List Char))
    (h1 : validOrder names2 o1) (h2 : validOrder names2 o2)
    (hinj : ∀ q ∈ cleanedList names1, ∀ e1 ∈ cleanedList names2,
      ∀ e2 ∈ cleanedList names2, ratio q e1 = ratio q e2 → e1 = e2) :
    find_potential_duplicates names1 names2 threshold o1 =
      find_potential_duplicates names1 names2 threshold o2 := by
  have hperm : o1.Perm o2 := (List.perm_ext_iff_of_nodup h1.1 h2.1).mpr
    fun a => ⟨fun ha => h2.2.2 a (h1.2.1 a ha), fun ha => h1.2.2 a (h2.2.1 a ha)⟩
  have hres : (cleanedList names1).filterMap (processQuery o1 threshold) =
      (cleanedList names1).filterMap (processQuery o2 threshold) :=
    List.filterMap_congr fun q hq =>
      processQuery_congr o1 o2 threshold q hperm h1.1
        fun e1 he1 e2 he2 => hinj q hq e1 (h1.2.1 e1 he1) e2 (h1.2.1 e2 he2)
  rw [find_potential_duplicates, find_potential_duplicates, hres]

/-- Witness for C4 (amended): query "ab" against references "ac" and "zz"
(similarities 1/2 and 0, no tie) gives the same report for both iteration
orders. -/
theorem c4_witness :
    validOrder [some ['a', 'c'], some ['z', 'z']] [['a', 'c'], ['z', 'z']] ∧
      validOrder [some ['a', 'c'], some ['z', 'z']] [['z', 'z'], ['a', 'c']] ∧
      find_potential_duplicates [some ['a', 'b']] [some ['a', 'c'], some ['z', 'z']]
          (mkRat 1 2) [['a', 'c'], ['z', 'z']] =
        find_potential_duplicates [some ['a', 'b']] [some ['a', 'c'], some ['z', 'z']]
          (mkRat 1 2) [['z', 'z'], ['a', 'c']] :=
  ⟨by decide, by decide,
    c4_amended_order_independent [some ['a', 'b']] [some ['a', 'c'], some ['z', 'z']]
      (mkRat 1 2) [['a', 'c'], ['z', 'z']] [['z', 'z'], ['a', 'c']]
      (by decide) (by decide) (by decide)⟩

end ListWork
